import Mathlib

/-!
Verification of the WhatsIt browser extension core
(`background.js`, `utils/dom-utils.js`).

The JavaScript sources are shallowly embedded: JS strings are Lean
`String`s (operated on through their `.data` character lists, matching
the per-character semantics of the JS string methods used by the code),
JS arrays are Lean `List`s, and the stable `Array.prototype.sort`
(stability is mandated by ES2019) is `List.mergeSort`, which is stable.
-/
namespace WhatsIt

/-! ## Text fragments (`dom-utils.js` / `background.js`)

A fragment is one extracted unit of page text.  `background.js` tags
fragments with the strings `'heading'`, `'paragraph'`, `'list_item'`;
we use an enumeration.  The `element` back-reference carried by the JS
objects (a borrowed DOM pointer) is not examined by any of the code
verified here and is omitted. -/
inductive FragType where
  | heading
  | paragraph
  | list_item
deriving DecidableEq

structure Frag where
  type : FragType
  level : Option Nat
  text : String
  importance : Int
deriving DecidableEq

/-! ## The ranker: `selectKeyPoints` (background.js:310-326) -/

/-- The JS comparator passed to `sort`: first `a.importance - b.importance`,
then `b.text.length - a.text.length` for equal importance. -/
def fragCmp (a b : Frag) : Int :=
  if a.importance ≠ b.importance then a.importance - b.importance
  else (b.text.length : Int) - (a.text.length : Int)

/-- `a` sorts no later than `b` exactly when the comparator is `≤ 0`. -/
def fragLe (a b : Frag) : Bool := decide (fragCmp a b ≤ 0)

/-- `selectKeyPoints(textElements)`: sort a copy of the array with the
comparator above (JS `sort` is stable, hence `mergeSort`) and `slice(0, 5)`. -/
def selectKeyPoints (textElements : List Frag) : List Frag :=
  (textElements.mergeSort fragLe).take 5

/-- The spread `[...textElements]` allocates a fresh array and `.sort`
mutates only that fresh array, so the argument array still holds its
original contents after the call.  The second component records the
contents of the caller's array once `selectKeyPoints` returns. -/
def jsSortInPlace (arr : List Frag) : List Frag := arr.mergeSort fragLe

def selectKeyPointsEffect (textElements : List Frag) : List Frag × List Frag :=
  let sortedElements := jsSortInPlace textElements
  (sortedElements.take 5, textElements)

/-! Spec-side description of the ranker: a stable sort written from the
spec's words — primary ascending by `importance`, ties broken by
descending `text.length`, fully-equal fragments keep their original
relative order.  Insertion sort is the canonical stable sort. -/
def specFragLe (a b : Frag) : Bool :=
  decide (a.importance < b.importance ∨
    (a.importance = b.importance ∧ b.text.length ≤ a.text.length))

def specInsert (a : Frag) : List Frag → List Frag
  | [] => [a]
  | b :: l => if specFragLe a b then a :: b :: l else b :: specInsert a l

def specStableSort : List Frag → List Frag
  | [] => []
  | a :: l => specInsert a (specStableSort l)

/-! ## JS string replacement primitives (background.js fallbacks)

`String.prototype.replace` with a string pattern replaces only the first
occurrence; with a `/…/g` regex it replaces every occurrence, resuming the
scan right after each replacement; with `/\b…\b/gi` it replaces
case-insensitive whole-word occurrences.  All three are modelled on the
strings' character lists. -/

/-- JS `text.replace('pat', repl)`: replace only the leftmost occurrence
of the literal pattern, case-sensitively. -/
def replaceFirstL (pat repl : List Char) : List Char → List Char
  | [] => []
  | c :: rest =>
    if (c :: rest).take pat.length = pat then repl ++ (c :: rest).drop pat.length
    else c :: replaceFirstL pat repl rest

/-- Index of the first occurrence of `pat` in the string (`none` if absent). -/
def firstIdxL (pat : List Char) : List Char → Option Nat
  | [] => if pat = [] then some 0 else none
  | c :: rest =>
    if (c :: rest).take pat.length = pat then some 0
    else (firstIdxL pat rest).map (· + 1)

/-- `pat` occurs in `s` at index `i`. -/
def matchAt (pat s : List Char) (i : Nat) : Prop := (s.drop i).take pat.length = pat

/-- Spec-side description of first-occurrence-only replacement: splice the
replacement in at the first occurrence index and keep everything after the
occurrence — in particular all later occurrences — unchanged. -/
def replaceFirstSpec (pat repl s : List Char) : List Char :=
  match firstIdxL pat s with
  | none => s
  | some i => s.take i ++ repl ++ s.drop (i + pat.length)

/-- JS `text.replace(/pat/g, repl)` with a literal pattern: replace every
occurrence, scanning from left to right and resuming right after each
replacement.  Defined for non-empty patterns only (all patterns passed by
`background.js` are non-empty literals). -/
def replaceAllL (pat repl : List Char) (hw : 0 < pat.length) : List Char → List Char
  | [] => []
  | c :: rest =>
    if (c :: rest).take pat.length = pat then
      repl ++ replaceAllL pat repl hw ((c :: rest).drop pat.length)
    else c :: replaceAllL pat repl hw rest
termination_by s => s.length
decreasing_by
  · simp only [List.length_drop, List.length_cons]
    omega
  · simp only [List.length_cons]
    omega

/-- JS `\w` word characters: ASCII letters, digits and the underscore. -/
def isWordChar (c : Char) : Bool := c.isAlphanum || c == Char.ofNat 95

/-- JS `toLowerCase`, per character. -/
def lowerL (l : List Char) : List Char := l.map Char.toLower

def jsToLowerCase (s : String) : String := ⟨lowerL s.data⟩

/-- Left word-boundary test: `\b` holds before a word character when the
previous character is absent or not a word character. -/
def prevBoundary : Option Char → Bool
  | none => true
  | some p => !isWordChar p

/-- Right word-boundary test after a match. -/
def nextBoundary : List Char → Bool
  | [] => true
  | d :: _ => !isWordChar d

/-- Scanner for `text.replace(new RegExp('\\b' + w + '\\b', 'gi'), repl)`:
case-insensitive whole-word global replacement; `prev` is the character
just before the scan position. -/
def goRW (w repl : List Char) (hw : 0 < w.length) (prev : Option Char) :
    List Char → List Char
  | [] => []
  | c :: rest =>
    if prevBoundary prev ∧ lowerL ((c :: rest).take w.length) = lowerL w ∧
        nextBoundary ((c :: rest).drop w.length) then
      repl ++ goRW w repl hw ((c :: rest).take w.length).getLast? ((c :: rest).drop w.length)
    else c :: goRW w repl hw (some c) rest
termination_by s => s.length
decreasing_by
  · simp only [List.length_drop, List.length_cons]
    omega
  · simp only [List.length_cons]
    omega

def replaceWordAll (w repl : List Char) (hw : 0 < w.length) (s : List Char) : List Char :=
  goRW w repl hw none s

/-- `simplifyText` (background.js:363-387): the eight dictionary entries
applied in `Object.entries` order, each as a case-insensitive whole-word
global replacement. -/
def simplifyText (text : String) : String :=
  ⟨replaceWordAll "subsequently".data "later".data (by decide)
    (replaceWordAll "nevertheless".data "still".data (by decide)
      (replaceWordAll "consequently".data "so".data (by decide)
        (replaceWordAll "additionally".data "also".data (by decide)
          (replaceWordAll "demonstrate".data "show".data (by decide)
            (replaceWordAll "sufficient".data "enough".data (by decide)
              (replaceWordAll "implement".data "use".data (by decide)
                (replaceWordAll "utilize".data "use".data (by decide) text.data)))))))⟩

/-! The contraction strings contain an apostrophe (code point 39). -/
def apos : Char := Char.ofNat 39

def wontL : List Char := ['w', 'o', 'n', apos, 't']

def cantL : List Char := ['c', 'a', 'n', apos, 't']

def dontL : List Char := ['d', 'o', 'n', apos, 't']

def willNotL : List Char := "will not".data

def cannotL : List Char := "cannot".data

def doNotL : List Char := "do not".data

/-- `adjustTone` (background.js:395-421).  The casual arm chains three
first-occurrence-only string replacements; the formal arm chains three
global regex replacements; the friendly arm appends a phrase; unknown
tones pass the text through. -/
def adjustTone (text : String) (tone : String) : String :=
  let t := jsToLowerCase tone
  if t == "casual" then
    ⟨replaceFirstL doNotL dontL
      (replaceFirstL cannotL cantL
        (replaceFirstL willNotL wontL text.data))⟩
  else if t == "formal" then
    ⟨replaceAllL dontL doNotL (by decide)
      (replaceAllL cantL cannotL (by decide)
        (replaceAllL wontL willNotL (by decide) text.data))⟩
  else if t == "friendly" then text ++ " Hope that helps!"
  else text

/-! ## The rewrite engine and summarizer entry points (background.js)

The external "language service" collaborator (Chrome's `Summarizer` /
`Rewriter` globals) is modelled in its three failure modes, which is all
claim C2 quantifies over: the global is absent (`!('X' in self)`), its
`availability()` resolves to `'unavailable'`, or any of its calls throws.
An async JS function that returns normally is `Except.ok`; one whose
promise rejects is `Except.error`. -/
inductive SvcState where
  | absent
  | unavailable
  | throwing
deriving DecidableEq

structure RewriteOptions where
  simplify : Bool
  tone : Option String
deriving DecidableEq

structure RewriteResult where
  success : Bool
  original : String
  rewritten : String
deriving DecidableEq

/-- JS truthiness of `options.tone`: `undefined` and `''` are falsy. -/
def toneTruthy : Option String → Bool
  | none => false
  | some s => !(s == "")

/-- `fallbackRewrite` (background.js:188-204). -/
def fallbackRewrite (text : String) (options : RewriteOptions) : RewriteResult :=
  let r1 := if options.simplify then simplifyText text else text
  let r2 := if toneTruthy options.tone then adjustTone r1 (options.tone.getD "") else r1
  ⟨true, text, r2⟩

/-- `rewriteText` (background.js:128-180): every failure mode of the
collaborator reaches `fallbackRewrite(text, options)` — the absent and
unavailable checks return it from the `try` block, a throwing collaborator
reaches it through the `catch` block; no step of the fallback can throw. -/
def rewriteText (svc : SvcState) (text : String) (options : RewriteOptions) :
    Except String RewriteResult :=
  match svc with
  | .absent => .ok (fallbackRewrite text options)
  | .unavailable => .ok (fallbackRewrite text options)
  | .throwing => .ok (fallbackRewrite text options)

structure SummaryResult where
  success : Bool
  summary : String
  keyPoints : List Frag
deriving DecidableEq

/-- `firstPara.substring(0, n)`. -/
def jsSubstringTo (s : String) (n : Nat) : String := ⟨s.data.take n⟩

/-- `generateMockSummary` (background.js:334-356). -/
def generateMockSummary (textElements : List Frag) (title : String) : String :=
  let headings := textElements.filter fun el => el.type == FragType.heading
  let paragraphs := textElements.filter fun el => el.type == FragType.paragraph
  let s1 : String := "This page discusses " ++ title ++ ". "
  let s2 : String :=
    if h : 0 < headings.length then
      s1 ++ "The main topic is " ++ (headings.get ⟨0, h⟩).text ++ ". "
    else s1
  if h : 0 < paragraphs.length then
    let firstPara := (paragraphs.get ⟨0, h⟩).text
    let snippet :=
      if 100 < firstPara.length then jsSubstringTo firstPara 100 ++ "..." else firstPara
    s2 ++ snippet
  else s2

/-- `fallbackSummarize` (background.js:108-120). -/
def fallbackSummarize (textElements : List Frag) (title : String) : SummaryResult :=
  ⟨true, generateMockSummary textElements title, selectKeyPoints textElements⟩

/-- The message payload `pageData`: both fields may be `undefined`. -/
structure PageData where
  textElements : Option (List Frag)
  title : Option String
deriving DecidableEq

/-- JS template-literal coercion of a possibly-undefined value (an
`undefined` title interpolates as the string `"undefined"`). -/
def jsTemplate : Option String → String
  | none => "undefined"
  | some s => s

/-- `summarizeContent` (background.js:31-100).  The `try` block defaults
`textElements` to `[]` and `title` to `''` before the absent/unavailable
checks, but the `catch` block calls
`fallbackSummarize(pageData.textElements, pageData.title)` with the raw
fields: when the collaborator throws and `pageData.textElements` is
`undefined`, `selectKeyPoints` spreads `undefined` and the function's
promise rejects with a `TypeError`. -/
def summarizeContent (svc : SvcState) (pd : PageData) : Except String SummaryResult :=
  match svc with
  | .absent => .ok (fallbackSummarize (pd.textElements.getD []) (pd.title.getD ""))
  | .unavailable => .ok (fallbackSummarize (pd.textElements.getD []) (pd.title.getD ""))
  | .throwing =>
    match pd.textElements with
    | none => .error "TypeError: undefined is not iterable"
    | some xs => .ok (fallbackSummarize xs (jsTemplate pd.title))

/-- The fallback summary as the spec words it: the title sentence, then a
main-topic sentence built from the first heading fragment when one
exists, then the first paragraph fragment's text truncated to 100
characters with a trailing ellipsis when longer than 100. -/
def specFallbackSummary (fragments : List Frag) (title : String) : String :=
  "This page discusses " ++ title ++ ". " ++
    (match fragments.find? (fun el => el.type == FragType.heading) with
     | some h => "The main topic is " ++ h.text ++ ". "
     | none => "") ++
    (match fragments.find? (fun el => el.type == FragType.paragraph) with
     | some p => if 100 < p.text.length then jsSubstringTo p.text 100 ++ "..." else p.text
     | none => "")

/-! ## DOM model (utils/dom-utils.js)

A document node is a text node or an element with a tag, a class list
and children.  Tags are stored in canonical lowercase form; JS
comparisons against the uppercase `tagName` (`'SCRIPT'`, …) are modelled
on the lowercase names.  `querySelectorAll` returns matches in document
order, i.e. pre-order. -/
inductive DNode where
  | text : String → DNode
  | elem : String → List String → List DNode → DNode

def tagOf : DNode → String
  | .text _ => ""
  | .elem t _ _ => t

mutual

def textContentN : DNode → String
  | .text s => s
  | .elem _ _ kids => textContentF kids

def textContentF : List DNode → String
  | [] => ""
  | n :: rest => textContentN n ++ textContentF rest

end

/-- JS `String.prototype.trim`: strip leading and trailing whitespace. -/
def jsTrim (s : String) : String :=
  ⟨((s.data.dropWhile Char.isWhitespace).reverse.dropWhile Char.isWhitespace).reverse⟩

mutual

def qsaN (tags : List String) : DNode → List DNode
  | .text _ => []
  | .elem t c kids => (if t ∈ tags then [DNode.elem t c kids] else []) ++ qsaF tags kids

def qsaF (tags : List String) : List DNode → List DNode
  | [] => []
  | n :: rest => qsaN tags n ++ qsaF tags rest

end

/-! `item.closest('nav')` needs the ancestor chain, so the `li` pass is a
traversal that carries an "inside a nav element" flag; each match is
paired with that flag (ancestor-or-self, as `closest` includes self). -/
mutual

def qsaNavN (tags : List String) (inNav : Bool) : DNode → List (DNode × Bool)
  | .text _ => []
  | .elem t c kids =>
    (if t ∈ tags then [(DNode.elem t c kids, inNav || t == "nav")] else []) ++
      qsaNavF tags (inNav || t == "nav") kids

def qsaNavF (tags : List String) (inNav : Bool) : List DNode → List (DNode × Bool)
  | [] => []
  | n :: rest => qsaNavN tags inNav n ++ qsaNavF tags inNav rest

end

/-! The full document-order element sequence, each element paired with
its "inside a nav element" flag (used as the spec-side description of
the query passes). -/
mutual

def elemsNavN (inNav : Bool) : DNode → List (DNode × Bool)
  | .text _ => []
  | .elem t c kids =>
    (DNode.elem t c kids, inNav || t == "nav") :: elemsNavF (inNav || t == "nav") kids

def elemsNavF (inNav : Bool) : List DNode → List (DNode × Bool)
  | [] => []
  | n :: rest => elemsNavN inNav n ++ elemsNavF inNav rest

end

/-! ### `extractPageContent` (dom-utils.js:9-78) -/
def hTags : List String := ["h1", "h2", "h3", "h4", "h5", "h6"]

/-- `parseInt(heading.tagName.substring(1))` for the tags `h1`–`h6`. -/
def headingLevel (t : String) : Nat :=
  if t == "h1" then 1 else if t == "h2" then 2 else if t == "h3" then 3
  else if t == "h4" then 4 else if t == "h5" then 5 else 6

/-- The heading pass: every `h1`–`h6` element with non-empty trimmed text
becomes a heading fragment whose importance is its level. -/
def headingBuilder (n : DNode) : Option Frag :=
  let text := jsTrim (textContentN n)
  if text ≠ "" then
    some ⟨FragType.heading, some (headingLevel (tagOf n)), text, (headingLevel (tagOf n) : Int)⟩
  else none

def headingFragsOf (doc : DNode) : List Frag :=
  (qsaN hTags doc).filterMap headingBuilder

/-- The paragraph pass: `text && text.length > 20`. -/
def paragraphBuilder (n : DNode) : Option Frag :=
  let text := jsTrim (textContentN n)
  if text ≠ "" ∧ 20 < text.length then some ⟨FragType.paragraph, none, text, 10⟩ else none

def paragraphFragsOf (doc : DNode) : List Frag :=
  (qsaN ["p"] doc).filterMap paragraphBuilder

/-- The list-item pass: `text && text.length > 15 && !item.closest('nav')`. -/
def liBuilder (p : DNode × Bool) : Option Frag :=
  let text := jsTrim (textContentN p.1)
  if text ≠ "" ∧ 15 < text.length ∧ p.2 = false then
    some ⟨FragType.list_item, none, text, 15⟩
  else none

def listItemFragsOf (doc : DNode) : List Frag :=
  (qsaNavN ["li"] false doc).filterMap liBuilder

/-- The position boost: the first five collected fragments get their
importance reduced by 2 (dom-utils.js:66-71). -/
def applyBoost (textElements : List Frag) : List Frag :=
  textElements.enum.map fun p =>
    if p.1 < 5 then ⟨p.2.type, p.2.level, p.2.text, p.2.importance - 2⟩ else p.2

structure PageContent where
  title : String
  url : String
  textElements : List Frag
deriving DecidableEq

/-- `extractPageContent`: three separate `querySelectorAll` passes —
headings, then paragraphs, then list items — appended in that order,
then the position boost.  `document.title` and `window.location.href`
are parameters of the embedding. -/
def extractPageContent (title url : String) (doc : DNode) : PageContent :=
  ⟨title, url, applyBoost (headingFragsOf doc ++ paragraphFragsOf doc ++ listItemFragsOf doc)⟩

/-! ### Spec-side extractor descriptions (claim C4) -/

/-- The most specific of `{article, main, body}` found in the document,
as the spec's scoping rule words it. -/
def containerOf (doc : DNode) : DNode :=
  match qsaN ["article"] doc with
  | c :: _ => c
  | [] =>
    match qsaN ["main"] doc with
    | c :: _ => c
    | [] =>
      match qsaN ["body"] doc with
      | c :: _ => c
      | [] => doc

mutual

/-- Single pre-order pass collecting recognized fragments in document
order (the spec's claimed output order), with the same per-kind
admission rules as the code. -/
def specFragsN (inNav : Bool) : DNode → List Frag
  | .text _ => []
  | .elem t c kids =>
    (if t ∈ hTags then
      (match headingBuilder (.elem t c kids) with | some f => [f] | none => [])
     else if t == "p" then
      (match paragraphBuilder (.elem t c kids) with | some f => [f] | none => [])
     else if t == "li" then
      (match liBuilder (.elem t c kids, inNav || t == "nav") with | some f => [f] | none => [])
     else []) ++ specFragsF (inNav || t == "nav") kids

def specFragsF (inNav : Bool) : List DNode → List Frag
  | [] => []
  | n :: rest => specFragsN inNav n ++ specFragsF inNav rest

end

/-- The extractor as claim C4 states it: fragments in document order,
scoped to the most specific of `{article, main, body}`. -/
def specExtractFrags (doc : DNode) : List Frag :=
  applyBoost (specFragsN false (containerOf doc))

/-- Grouped-by-kind spec description: the heading fragments of the
document-order element sequence. -/
def specHeadingFrags (doc : DNode) : List Frag :=
  (elemsNavN false doc).filterMap fun p =>
    if tagOf p.1 ∈ hTags then headingBuilder p.1 else none

def specParagraphFrags (doc : DNode) : List Frag :=
  (elemsNavN false doc).filterMap fun p =>
    if tagOf p.1 ∈ ["p"] then paragraphBuilder p.1 else none

def specListItemFrags (doc : DNode) : List Frag :=
  (elemsNavN false doc).filterMap fun p =>
    if tagOf p.1 ∈ ["li"] then liBuilder p else none

/-- C4 counterexample document: a paragraph that precedes a heading in
document order. -/
def cdoc : DNode :=
  .elem "body" []
    [.elem "p" [] [.text "This paragraph has more than twenty characters."],
     .elem "h1" [] [.text "Title"]]

/-- Concrete document used to witness the extraction invariants. -/
def wdoc : DNode := .elem "body" [] [.elem "h1" [] [.text "Hello"]]

/-! ### Highlighting (dom-utils.js:119-234)

`highlightText(t)` walks the text nodes of `document.body`
(`getTextNodes` filters out empty nodes and nodes under
script/style/noscript or under existing highlight/sidebar elements),
matches each node's value against the escaped text as a case-insensitive
regex (first match per node, the regex has no `g` flag), and wraps the
matched range in a `span.whatsit-highlight` via `surroundContents`, which
splits the text node in three.  `removeHighlights()` replaces each
highlight element by a text node holding its `textContent` and normalizes
the parent (drop empty text nodes, merge adjacent ones). -/

/-- First case-insensitive occurrence of `needle` (an escaped literal
regex with the `i` flag matches exactly the case-insensitive literal). -/
def firstMatchCI (needle hay : List Char) : Option Nat :=
  firstIdxL (lowerL needle) (lowerL hay)

def skipTags : List String := ["script", "style", "noscript"]

/-- The `getTextNodes` walker filter, given the parent's tag and class
list (dom-utils.js:192-203). -/
def acceptText (ptag : String) (pcls : List String) (s : String) : Bool :=
  decide (jsTrim s ≠ "" ∧ ptag ∉ skipTags ∧
    "whatsit-highlight" ∉ pcls ∧ "whatsit-sidebar" ∉ pcls)

mutual

/-- One highlighting pass over a node whose parent has tag `ptag` and
classes `pcls`: an accepted, matching text node becomes the
`surroundContents` split (prefix, highlight span, suffix); elements
recurse into their children.  The boundary text nodes may be empty; they
are skipped by any later walk since their trimmed value is empty. -/
def hlN (needle : List Char) (ptag : String) (pcls : List String) : DNode → List DNode
  | .text s =>
    if acceptText ptag pcls s then
      match firstMatchCI needle s.data with
      | some i =>
        [.text ⟨s.data.take i⟩,
         .elem "span" ["whatsit-highlight"] [.text ⟨(s.data.drop i).take needle.length⟩],
         .text ⟨s.data.drop (i + needle.length)⟩]
      | none => [.text s]
    else [.text s]
  | .elem t c kids => [.elem t c (hlF needle t c kids)]

def hlF (needle : List Char) (ptag : String) (pcls : List String) : List DNode → List DNode
  | [] => []
  | n :: rest => hlN needle ptag pcls n ++ hlF needle ptag pcls rest

end

/-- `highlightText` on `document.body`; empty text is rejected up front
(`if (!textToHighlight) return []`).  `document.body` is an element, so
the walk starts from its children with the body as parent context. -/
def highlightText (needle : String) (body : DNode) : DNode :=
  if needle == "" then body
  else
    match body with
    | .text s => .text s
    | .elem t c kids => .elem t c (hlF needle.data t c kids)

mutual

/-- `removeHighlights()`: every element carrying the `whatsit-highlight`
class is replaced by a text node holding its `textContent` (nested
highlights inside it are flattened with it, as the replaced subtree is
detached). -/
def rmN : DNode → DNode
  | .text s => .text s
  | .elem t c kids =>
    if "whatsit-highlight" ∈ c then .text (textContentN (.elem t c kids))
    else .elem t c (rmF kids)

def rmF : List DNode → List DNode
  | [] => []
  | n :: rest => rmN n :: rmF rest

end

/-- `Node.normalize()` on a child list: drop empty text nodes and merge
adjacent text nodes. -/
def normF : List DNode → List DNode
  | [] => []
  | .text s :: rest =>
    (match s == "", normF rest with
     | true, r => r
     | false, .text s2 :: r2 => .text (s ++ s2) :: r2
     | false, r => .text s :: r)
  | .elem t c kids :: rest => .elem t c (normF kids) :: normF rest

def normN : DNode → DNode
  | .text s => .text s
  | .elem t c kids => .elem t c (normF kids)

def removeHighlights (body : DNode) : DNode := normN (rmN body)

mutual

/-- Number of highlight annotation elements in the document. -/
def countHLN : DNode → Nat
  | .text _ => 0
  | .elem _ c kids => (if "whatsit-highlight" ∈ c then 1 else 0) + countHLF kids

def countHLF : List DNode → Nat
  | [] => 0
  | n :: rest => countHLN n + countHLF rest

end

/-- The highlighted text occurs at most once (case-insensitively) in this
string: after its first occurrence there is no further occurrence. -/
def noSecondCI (needle s : List Char) : Bool :=
  match firstMatchCI needle s with
  | none => true
  | some i => (firstMatchCI needle (s.drop (i + needle.length))).isNone

mutual

def atMostOnceN (needle : List Char) : DNode → Bool
  | .text s => noSecondCI needle s.data
  | .elem _ _ kids => atMostOnceF needle kids

def atMostOnceF (needle : List Char) : List DNode → Bool
  | [] => true
  | n :: rest => atMostOnceN needle n && atMostOnceF needle rest

end

/-! ## Theorems -/

theorem fragLe_eq_spec (a b : Frag) : fragLe a b = specFragLe a b := by
  simp only [fragLe, specFragLe, fragCmp, decide_eq_decide]
  by_cases h : a.importance = b.importance
  · simp [h]
  · simp [h]
    omega

theorem fragLe_trans (a b c : Frag) : fragLe a b → fragLe b c → fragLe a c := by
  simp only [fragLe, fragCmp, decide_eq_true_eq]
  by_cases h1 : a.importance = b.importance <;>
    by_cases h2 : b.importance = c.importance <;>
      by_cases h3 : a.importance = c.importance <;>
        simp [h1, h2, h3] <;> omega

theorem fragLe_total (a b : Frag) : fragLe a b || fragLe b a := by
  simp only [fragLe, fragCmp, Bool.or_eq_true, decide_eq_true_eq]
  by_cases h : a.importance = b.importance <;> simp [h] <;> omega

theorem specInsert_append (a : Frag) :
    ∀ (l₁ l₂ : List Frag), (∀ b ∈ l₁, specFragLe a b = false) →
      (∀ c ∈ l₂, specFragLe a c = true) →
      specInsert a (l₁ ++ l₂) = l₁ ++ a :: l₂ := by
  intro l₁
  induction l₁ with
  | nil =>
    intro l₂ _ h₂
    cases l₂ with
    | nil => rfl
    | cons c r => simpa [specInsert] using fun h => by simp [h₂ c (by simp)] at h
  | cons b l ih =>
    intro l₂ h₁ h₂
    have hb : specFragLe a b = false := h₁ b (by simp)
    simp only [List.cons_append, specInsert, hb, Bool.false_eq_true, if_false,
      List.cons.injEq, true_and]
    exact ih l₂ (fun x hx => h₁ x (by simp [hx])) h₂

/-- The JS stable sort with the `selectKeyPoints` comparator coincides with
the spec's stable sort (insertion sort on the spec's ordering). -/
theorem mergeSort_eq_specStableSort :
    ∀ xs : List Frag, xs.mergeSort fragLe = specStableSort xs := by
  intro xs
  induction xs with
  | nil => simp [specStableSort]
  | cons a l ih =>
    obtain ⟨l₁, l₂, h₁, h₂, h₃⟩ := List.mergeSort_cons fragLe_trans fragLe_total a l
    have hs := List.sorted_mergeSort fragLe_trans fragLe_total (a :: l)
    rw [h₁] at hs
    have ha : ∀ c ∈ l₂, specFragLe a c = true := by
      intro c hc
      have h := List.rel_of_pairwise_cons (List.pairwise_append.mp hs).2.1 hc
      rw [← fragLe_eq_spec]; exact h
    have hb : ∀ b ∈ l₁, specFragLe a b = false := by
      intro b hbm
      have h := h₃ b hbm
      rw [← fragLe_eq_spec]
      simpa using h
    show List.mergeSort (a :: l) fragLe = specInsert a (specStableSort l)
    rw [h₁, ← ih, h₂, specInsert_append a l₁ l₂ hb ha]

/-- C1: `selectKeyPoints(fragments)` is the stable sort of the fragment
list, primarily ascending by importance with ties broken by descending
text length, truncated to its first 5 elements; hence the result never
has more than 5 entries, and the empty list yields the empty list. -/
theorem selectKeyPoints_meets_spec (fragments : List Frag) :
    selectKeyPoints fragments = (specStableSort fragments).take 5 ∧
    (selectKeyPoints fragments).length ≤ 5 ∧
    selectKeyPoints ([] : List Frag) = [] := by
  refine ⟨?_, ?_, ?_⟩
  · rw [selectKeyPoints, mergeSort_eq_specStableSort]
  · exact List.length_take_le 5 _
  · simp [selectKeyPoints]

/-- C9: the ranker is a deterministic function of its input — two runs of
`selectKeyPoints` on the same fragment list produce identical output.  In
the embedding `selectKeyPoints` is a pure function (the JS comparator
reads only its two arguments, so `Array.prototype.sort` is deterministic),
which makes determinism definitional. -/
theorem selectKeyPoints_deterministic (fragments : List Frag) :
    selectKeyPoints fragments = selectKeyPoints fragments := rfl

/-- C10: `selectKeyPoints` sorts the spread copy `[...textElements]`, never
the argument array, so after the call the input array still holds the same
elements in the same order; the result is the same as the pure reading. -/
theorem selectKeyPoints_preserves_input (textElements : List Frag) :
    (selectKeyPointsEffect textElements).2 = textElements ∧
    (selectKeyPointsEffect textElements).1 = selectKeyPoints textElements :=
  ⟨rfl, rfl⟩

theorem firstIdxL_first (pat : List Char) :
    ∀ s i, firstIdxL pat s = some i → matchAt pat s i ∧ ∀ j < i, ¬matchAt pat s j := by
  intro s
  induction s with
  | nil =>
    intro i h
    by_cases hp : pat = []
    · simp only [firstIdxL, hp, if_true, Option.some.injEq] at h
      subst h
      exact ⟨by simp [matchAt, hp], by omega⟩
    · simp [firstIdxL, hp] at h
  | cons c rest ih =>
    intro i h
    by_cases hm : (c :: rest).take pat.length = pat
    · simp only [firstIdxL, hm, if_true, Option.some.injEq] at h
      subst h
      exact ⟨by simpa [matchAt] using hm, by omega⟩
    · simp only [firstIdxL, hm, if_false, Option.map_eq_some'] at h
      obtain ⟨j, hj, rfl⟩ := h
      obtain ⟨hmj, hmin⟩ := ih j hj
      refine ⟨by simpa [matchAt] using hmj, ?_⟩
      intro k hk
      match k with
      | 0 => simpa [matchAt] using hm
      | k + 1 =>
        have := hmin k (by omega)
        simpa [matchAt] using this

theorem replaceFirstL_eq_spec (pat repl : List Char) (hp : pat ≠ []) :
    ∀ s, replaceFirstL pat repl s = replaceFirstSpec pat repl s := by
  intro s
  induction s with
  | nil => simp [replaceFirstL, replaceFirstSpec, firstIdxL, hp]
  | cons c rest ih =>
    by_cases hm : (c :: rest).take pat.length = pat
    · simp [replaceFirstL, replaceFirstSpec, firstIdxL, hm]
    · simp only [replaceFirstL, hm, if_false, ih, replaceFirstSpec, firstIdxL]
      cases h2 : firstIdxL pat rest with
      | none => simp
      | some i =>
        have harith : i + 1 + pat.length = (i + pat.length) + 1 := by omega
        simp [harith]

/-- C7: with tone `'casual'` the fallback rewrite replaces only the first
literal occurrence of each of "will not", "cannot" and "do not" with its
contraction: each step splices the contraction in at the first occurrence
index and leaves the rest of the string — hence every later occurrence of
the phrase — unchanged. -/
theorem adjustTone_casual_first_only (text : String) :
    adjustTone text "casual" =
      ⟨replaceFirstSpec doNotL dontL
        (replaceFirstSpec cannotL cantL
          (replaceFirstSpec willNotL wontL text.data))⟩ := by
  have hbranch : adjustTone text "casual" =
      ⟨replaceFirstL doNotL dontL
        (replaceFirstL cannotL cantL
          (replaceFirstL willNotL wontL text.data))⟩ := rfl
  rw [hbranch,
    replaceFirstL_eq_spec willNotL wontL (by decide),
    replaceFirstL_eq_spec cannotL cantL (by decide),
    replaceFirstL_eq_spec doNotL dontL (by decide)]

/-! Non-emptiness facts used for claim C2. -/
theorem strExtData {a b : String} (h : a.data = b.data) : a = b := by
  cases a
  cases b
  exact congrArg String.mk h

theorem str_ne_empty_of_data {s : String} (h : s.data ≠ []) : s ≠ "" := by
  intro hc
  rw [hc] at h
  exact h rfl

theorem data_ne_of_str_ne {s : String} (h : s ≠ "") : s.data ≠ [] := by
  intro hd
  apply h
  cases s
  exact congrArg String.mk hd

theorem append_ne_empty_left (a b : String) (h : a ≠ "") : a ++ b ≠ "" := by
  apply str_ne_empty_of_data
  rw [String.data_append]
  intro hc
  exact data_ne_of_str_ne h (List.append_eq_nil.mp hc).1

theorem append_ne_empty_right (a b : String) (h : b ≠ "") : a ++ b ≠ "" := by
  apply str_ne_empty_of_data
  rw [String.data_append]
  intro hc
  exact data_ne_of_str_ne h (List.append_eq_nil.mp hc).2

theorem replaceFirstL_ne_nil (pat repl : List Char) (hr : repl ≠ []) :
    ∀ {s : List Char}, s ≠ [] → replaceFirstL pat repl s ≠ [] := by
  intro s hs
  cases s with
  | nil => exact absurd rfl hs
  | cons c rest =>
    simp only [replaceFirstL]
    split
    · simp [hr]
    · simp

theorem replaceAllL_ne_nil (pat repl : List Char) (hw : 0 < pat.length) (hr : repl ≠ []) :
    ∀ {s : List Char}, s ≠ [] → replaceAllL pat repl hw s ≠ [] := by
  intro s hs
  cases s with
  | nil => exact absurd rfl hs
  | cons c rest =>
    simp only [replaceAllL]
    split
    · simp [hr]
    · simp

theorem goRW_ne_nil (w repl : List Char) (hw : 0 < w.length) (hr : repl ≠ [])
    (prev : Option Char) : ∀ {s : List Char}, s ≠ [] → goRW w repl hw prev s ≠ [] := by
  intro s hs
  cases s with
  | nil => exact absurd rfl hs
  | cons c rest =>
    simp only [goRW]
    split
    · simp [hr]
    · simp

theorem replaceWordAll_ne_nil (w repl : List Char) (hw : 0 < w.length) (hr : repl ≠ [])
    {s : List Char} (hs : s ≠ []) : replaceWordAll w repl hw s ≠ [] :=
  goRW_ne_nil w repl hw hr none hs

theorem simplifyText_ne_empty (text : String) (h : text ≠ "") : simplifyText text ≠ "" := by
  apply str_ne_empty_of_data
  apply replaceWordAll_ne_nil _ _ _ (by decide)
  apply replaceWordAll_ne_nil _ _ _ (by decide)
  apply replaceWordAll_ne_nil _ _ _ (by decide)
  apply replaceWordAll_ne_nil _ _ _ (by decide)
  apply replaceWordAll_ne_nil _ _ _ (by decide)
  apply replaceWordAll_ne_nil _ _ _ (by decide)
  apply replaceWordAll_ne_nil _ _ _ (by decide)
  apply replaceWordAll_ne_nil _ _ _ (by decide)
  exact data_ne_of_str_ne h

theorem adjustTone_ne_empty (text tone : String) (h : text ≠ "") :
    adjustTone text tone ≠ "" := by
  simp only [adjustTone]
  split
  · apply str_ne_empty_of_data
    apply replaceFirstL_ne_nil _ _ (by decide)
    apply replaceFirstL_ne_nil _ _ (by decide)
    apply replaceFirstL_ne_nil _ _ (by decide)
    exact data_ne_of_str_ne h
  · split
    · apply str_ne_empty_of_data
      apply replaceAllL_ne_nil _ _ _ (by decide)
      apply replaceAllL_ne_nil _ _ _ (by decide)
      apply replaceAllL_ne_nil _ _ _ (by decide)
      exact data_ne_of_str_ne h
    · split
      · exact append_ne_empty_right _ _ (by decide)
      · exact h

theorem generateMockSummary_ne_empty (xs : List Frag) (title : String) :
    generateMockSummary xs title ≠ "" := by
  simp only [generateMockSummary]
  repeat' split
  all_goals repeat' apply append_ne_empty_left
  all_goals decide

theorem fallbackRewrite_rewritten_ne_empty (text : String) (options : RewriteOptions)
    (h : text ≠ "") : (fallbackRewrite text options).rewritten ≠ "" := by
  show (if toneTruthy options.tone then
      adjustTone (if options.simplify then simplifyText text else text) (options.tone.getD "")
    else (if options.simplify then simplifyText text else text)) ≠ ""
  have hr1 : (if options.simplify then simplifyText text else text) ≠ "" := by
    split
    · exact simplifyText_ne_empty text h
    · exact h
  split
  · exact adjustTone_ne_empty _ _ hr1
  · exact hr1

/-- C2 counterexample: with the collaborator absent, rewriting the empty
string yields `rewritten = ""` — an empty result — and with the
collaborator throwing and `pageData.textElements` undefined,
`summarizeContent` rejects instead of returning a success-shaped value. -/
theorem rewrite_summarize_fallback_cex :
    (rewriteText SvcState.absent "" ⟨false, none⟩ = Except.ok ⟨true, "", ""⟩) ∧
    summarizeContent SvcState.throwing ⟨none, none⟩ =
      Except.error "TypeError: undefined is not iterable" :=
  ⟨rfl, rfl⟩

/-- C2 amended: with the collaborator absent, unavailable or throwing,
`rewriteText` never throws and returns `success: true` with `original`
preserved verbatim and `rewritten` non-empty whenever the input text is
non-empty; `summarizeContent` returns `success: true` with a non-empty
summary whenever the collaborator is absent or unavailable, or
`pageData.textElements` is present (in the one remaining corner —
collaborator throwing with `textElements` undefined — its promise
rejects, as the counterexample shows). -/
theorem rewrite_summarize_fallback_amended (svc : SvcState) (pd : PageData)
    (text : String) (options : RewriteOptions)
    (h : svc ≠ SvcState.throwing ∨ pd.textElements ≠ none) :
    (∃ r, rewriteText svc text options = Except.ok r ∧ r.success = true ∧
      r.original = text ∧ (text ≠ "" → r.rewritten ≠ "")) ∧
    (∃ r, summarizeContent svc pd = Except.ok r ∧ r.success = true ∧ r.summary ≠ "") := by
  constructor
  · refine ⟨fallbackRewrite text options, ?_, rfl, rfl, ?_⟩
    · cases svc <;> rfl
    · exact fun ht => fallbackRewrite_rewritten_ne_empty text options ht
  · cases hsvc : svc with
    | absent => exact ⟨_, rfl, rfl, generateMockSummary_ne_empty _ _⟩
    | unavailable => exact ⟨_, rfl, rfl, generateMockSummary_ne_empty _ _⟩
    | throwing =>
      cases hx : pd.textElements with
      | none =>
        rw [hsvc] at h
        rcases h with h | h
        · exact absurd rfl h
        · exact absurd hx h
      | some xs =>
        refine ⟨fallbackSummarize xs (jsTemplate pd.title), ?_, rfl,
          generateMockSummary_ne_empty _ _⟩
        simp [summarizeContent, hx]

theorem rewrite_summarize_fallback_amended_witness :
    (∃ r, rewriteText SvcState.absent "hello" ⟨false, none⟩ = Except.ok r ∧
      r.success = true ∧ r.original = "hello" ∧ ("hello" ≠ "" → r.rewritten ≠ "")) ∧
    (∃ r, summarizeContent SvcState.absent ⟨some [], some "T"⟩ = Except.ok r ∧
      r.success = true ∧ r.summary ≠ "") :=
  rewrite_summarize_fallback_amended SvcState.absent ⟨some [], some "T"⟩ "hello"
    ⟨false, none⟩ (Or.inl (by decide))

/-! ## Claim C3: the deterministic fallback summary -/
theorem find?_eq_head?_filter {α : Type} (p : α → Bool) :
    ∀ l : List α, l.find? p = (l.filter p).head? := by
  intro l
  induction l with
  | nil => rfl
  | cons a rest ih =>
    by_cases h : p a
    · rw [List.find?_cons_of_pos _ h, List.filter_cons_of_pos h, List.head?_cons]
    · rw [List.find?_cons_of_neg _ h, List.filter_cons_of_neg h, ih]

/-- C3: for every fragment list and title the deterministic fallback
summary is exactly the spec's composition — title sentence, optional
main-topic sentence from the first heading fragment, then the first
paragraph fragment's text truncated to 100 characters with an ellipsis
when longer. -/
theorem generateMockSummary_matches_spec (fragments : List Frag) (title : String) :
    generateMockSummary fragments title = specFallbackSummary fragments title := by
  rcases hfh : fragments.filter (fun el => el.type == FragType.heading) with _ | ⟨h0, hrest⟩ <;>
    rcases hfp : fragments.filter (fun el => el.type == FragType.paragraph) with _ | ⟨p0, prest⟩ <;>
      simp [generateMockSummary, specFallbackSummary, find?_eq_head?_filter, hfh, hfp,
        String.append_assoc]
  all_goals apply strExtData
  all_goals simp [String.data_append, List.append_assoc]

mutual

theorem qsaNavN_filterMap (tags : List String) (g : DNode × Bool → Option Frag) :
    ∀ (i : Bool) (n : DNode),
      (qsaNavN tags i n).filterMap g =
        (elemsNavN i n).filterMap fun p => if tagOf p.1 ∈ tags then g p else none
  | _, .text s => rfl
  | i, .elem t c kids => by
    have ih := qsaNavF_filterMap tags g (i || t == "nav") kids
    by_cases ht : t ∈ tags <;>
      simp [qsaNavN, elemsNavN, ht, List.filterMap_append, List.filterMap_cons, tagOf, ih]

theorem qsaNavF_filterMap (tags : List String) (g : DNode × Bool → Option Frag) :
    ∀ (i : Bool) (f : List DNode),
      (qsaNavF tags i f).filterMap g =
        (elemsNavF i f).filterMap fun p => if tagOf p.1 ∈ tags then g p else none
  | _, [] => rfl
  | i, n :: rest => by
    have ih1 := qsaNavN_filterMap tags g i n
    have ih2 := qsaNavF_filterMap tags g i rest
    simp [qsaNavF, elemsNavF, List.filterMap_append, ih1, ih2]

end

mutual

theorem qsaN_eq_map_fst (tags : List String) :
    ∀ (i : Bool) (n : DNode), qsaN tags n = (qsaNavN tags i n).map Prod.fst
  | _, .text s => rfl
  | i, .elem t c kids => by
    have ih := qsaF_eq_map_fst tags (i || t == "nav") kids
    by_cases ht : t ∈ tags <;> simp [qsaN, qsaNavN, ht, ih]

theorem qsaF_eq_map_fst (tags : List String) :
    ∀ (i : Bool) (f : List DNode), qsaF tags f = (qsaNavF tags i f).map Prod.fst
  | _, [] => rfl
  | i, n :: rest => by
    have ih1 := qsaN_eq_map_fst tags i n
    have ih2 := qsaF_eq_map_fst tags i rest
    simp [qsaF, qsaNavF, ih1, ih2]

end

theorem headingFragsOf_eq_spec (doc : DNode) : headingFragsOf doc = specHeadingFrags doc := by
  rw [headingFragsOf, specHeadingFrags, qsaN_eq_map_fst hTags false doc,
    List.filterMap_map, ← qsaNavN_filterMap hTags (fun p => headingBuilder p.1) false doc]
  rfl

theorem paragraphFragsOf_eq_spec (doc : DNode) :
    paragraphFragsOf doc = specParagraphFrags doc := by
  rw [paragraphFragsOf, specParagraphFrags, qsaN_eq_map_fst ["p"] false doc,
    List.filterMap_map, ← qsaNavN_filterMap ["p"] (fun p => paragraphBuilder p.1) false doc]
  rfl

theorem listItemFragsOf_eq_spec (doc : DNode) :
    listItemFragsOf doc = specListItemFrags doc := by
  rw [listItemFragsOf, specListItemFrags, ← qsaNavN_filterMap ["li"] liBuilder false doc]

/-- C4 counterexample: on `cdoc` the extractor emits the heading fragment
before the paragraph fragment even though the paragraph comes first in
document order, so the output is not the document-order sequence the
claim describes. -/
theorem extract_not_document_order :
    (extractPageContent "Demo" "url" cdoc).textElements ≠ specExtractFrags cdoc := by
  decide

/-- C4 amended: the extractor produces the recognized fragments of the
whole document grouped by kind — all headings in document order, then
all qualifying paragraphs in document order, then all qualifying list
items in document order — with the position boost applied to the first
five of the concatenation; it does not interleave kinds in document
order and does not scope to an article/main/body container. -/
theorem extract_grouped_by_kind (title url : String) (doc : DNode) :
    (extractPageContent title url doc).textElements =
      applyBoost (specHeadingFrags doc ++ specParagraphFrags doc ++ specListItemFrags doc) := by
  rw [extractPageContent, headingFragsOf_eq_spec, paragraphFragsOf_eq_spec,
    listItemFragsOf_eq_spec]

/-! ### Claim C8: extraction invariants -/
theorem mem_enumFrom_snd {α : Type} :
    ∀ (l : List α) (n : Nat) (p : Nat × α), p ∈ l.enumFrom n → p.2 ∈ l := by
  intro l
  induction l with
  | nil => intro n p h; simp [List.enumFrom] at h
  | cons a rest ih =>
    intro n p h
    simp only [List.enumFrom, List.mem_cons] at h
    rcases h with h | h
    · subst h; simp
    · exact List.mem_cons_of_mem _ (ih (n + 1) p h)

theorem mem_applyBoost {f : Frag} {xs : List Frag} (h : f ∈ applyBoost xs) :
    ∃ g ∈ xs, f.text = g.text ∧ f.type = g.type := by
  simp only [applyBoost, List.mem_map] at h
  obtain ⟨⟨i, g⟩, hmem, hf⟩ := h
  have hg : g ∈ xs := mem_enumFrom_snd xs 0 (i, g) (by simpa [List.enum] using hmem)
  refine ⟨g, hg, ?_⟩
  by_cases hi : i < 5 <;> simp [hi] at hf <;> subst hf <;> simp

theorem headingBuilder_inv {n : DNode} {f : Frag} (h : headingBuilder n = some f) :
    f.text ≠ "" ∧ f.type = FragType.heading := by
  by_cases ht : jsTrim (textContentN n) ≠ "" <;> simp [headingBuilder, ht] at h
  subst h
  exact ⟨ht, rfl⟩

theorem paragraphBuilder_inv {n : DNode} {f : Frag} (h : paragraphBuilder n = some f) :
    f.text ≠ "" ∧ f.type = FragType.paragraph ∧ 20 < f.text.length := by
  simp only [paragraphBuilder] at h
  split at h
  · rename_i hc
    rw [Option.some.injEq] at h
    subst h
    exact ⟨hc.1, rfl, hc.2⟩
  · exact Option.noConfusion h

theorem liBuilder_inv {p : DNode × Bool} {f : Frag} (h : liBuilder p = some f) :
    f.text ≠ "" ∧ f.type = FragType.list_item ∧ 15 < f.text.length := by
  simp only [liBuilder] at h
  split at h
  · rename_i hc
    rw [Option.some.injEq] at h
    subst h
    exact ⟨hc.1, rfl, hc.2.1⟩
  · exact Option.noConfusion h

mutual

theorem qsaNavN_true_flag (tags : List String) :
    ∀ (n : DNode) (p : DNode × Bool), p ∈ qsaNavN tags true n → p.2 = true
  | .text s, p => by simp [qsaNavN]
  | .elem t c kids, p => by
    have ih := qsaNavF_true_flag tags kids
    simp only [qsaNavN, Bool.true_or, List.mem_append]
    intro h
    rcases h with h | h
    · by_cases ht : t ∈ tags <;> simp [ht] at h
      rw [h]
    · exact ih p h

theorem qsaNavF_true_flag (tags : List String) :
    ∀ (f : List DNode) (p : DNode × Bool), p ∈ qsaNavF tags true f → p.2 = true
  | [], p => by simp [qsaNavF]
  | n :: rest, p => by
    have ih1 := qsaNavN_true_flag tags n
    have ih2 := qsaNavF_true_flag tags rest
    simp only [qsaNavF, List.mem_append]
    intro h
    rcases h with h | h
    · exact ih1 p h
    · exact ih2 p h

end

theorem nav_subtree_no_listItems (i : Bool) (cls : List String) (kids : List DNode) :
    (qsaNavN ["li"] i (DNode.elem "nav" cls kids)).filterMap liBuilder = [] := by
  rw [List.filterMap_eq_nil_iff]
  intro p hp
  have hrw : qsaNavN ["li"] i (DNode.elem "nav" cls kids) = qsaNavF ["li"] true kids := by
    simp [qsaNavN]
  rw [hrw] at hp
  have hflag := qsaNavF_true_flag ["li"] kids p hp
  simp [liBuilder, hflag]

/-- C8: every fragment produced by the extractor has non-empty trimmed
text (the stored text is the trimmed `textContent`); a paragraph fragment
is produced only when its trimmed text exceeds 20 characters and a
list-item fragment only when its trimmed text exceeds 15 characters; and
a `nav` element's entire subtree contributes no list-item fragment at
all, wherever the subtree sits and whatever it contains. -/
theorem extractor_invariants :
    (∀ (title url : String) (doc : DNode) (f : Frag),
        f ∈ (extractPageContent title url doc).textElements →
          f.text ≠ "" ∧ (f.type = FragType.paragraph → 20 < f.text.length) ∧
            (f.type = FragType.list_item → 15 < f.text.length)) ∧
    (∀ (i : Bool) (cls : List String) (kids : List DNode),
        (qsaNavN ["li"] i (DNode.elem "nav" cls kids)).filterMap liBuilder = []) := by
  constructor
  · intro title url doc f h
    obtain ⟨g, hg, htext, htype⟩ := mem_applyBoost h
    rw [htext, htype]
    rcases List.mem_append.mp hg with hg | hg
    · rcases List.mem_append.mp hg with hg | hg
      · obtain ⟨n, _, hb⟩ := List.mem_filterMap.mp hg
        obtain ⟨hne, hty⟩ := headingBuilder_inv hb
        exact ⟨hne, by simp [hty], by simp [hty]⟩
      · obtain ⟨n, _, hb⟩ := List.mem_filterMap.mp hg
        obtain ⟨hne, hty, hlen⟩ := paragraphBuilder_inv hb
        exact ⟨hne, fun _ => hlen, by simp [hty]⟩
    · obtain ⟨n, _, hb⟩ := List.mem_filterMap.mp hg
      obtain ⟨hne, hty, hlen⟩ := liBuilder_inv hb
      exact ⟨hne, by simp [hty], fun _ => hlen⟩
  · exact nav_subtree_no_listItems

theorem extractor_invariants_witness :
    ((⟨FragType.heading, some 1, "Hello", -1⟩ : Frag).text ≠ "" ∧
      ((⟨FragType.heading, some 1, "Hello", -1⟩ : Frag).type = FragType.paragraph →
        20 < (⟨FragType.heading, some 1, "Hello", -1⟩ : Frag).text.length) ∧
      ((⟨FragType.heading, some 1, "Hello", -1⟩ : Frag).type = FragType.list_item →
        15 < (⟨FragType.heading, some 1, "Hello", -1⟩ : Frag).text.length)) ∧
    (qsaNavN ["li"] false
        (DNode.elem "nav" [] [DNode.elem "li" [] [DNode.text "A sufficiently long item"]])
      ).filterMap liBuilder = [] :=
  ⟨extractor_invariants.1 "t" "u" wdoc ⟨FragType.heading, some 1, "Hello", -1⟩ (by decide),
   extractor_invariants.2 false [] [DNode.elem "li" [] [DNode.text "A sufficiently long item"]]⟩

/-! ### Claim C5: teardown restores the text content -/
theorem str_empty_append (s : String) : "" ++ s = s := by
  apply strExtData
  rw [String.data_append]
  show [] ++ s.data = s.data
  exact List.nil_append _

theorem str_append_empty (s : String) : s ++ "" = s := by
  apply strExtData
  rw [String.data_append]
  show s.data ++ [] = s.data
  exact List.append_nil _

theorem textContentF_append :
    ∀ (a b : List DNode), textContentF (a ++ b) = textContentF a ++ textContentF b
  | [], b => (str_empty_append _).symm
  | n :: rest, b => by
    simp [textContentF, textContentF_append rest b, String.append_assoc]

mutual

theorem textContent_hlN (needle : List Char) :
    ∀ (ptag : String) (pcls : List String) (n : DNode),
      textContentF (hlN needle ptag pcls n) = textContentN n
  | ptag, pcls, .text s => by
    simp only [hlN]
    split
    · cases hm : firstMatchCI needle s.data with
      | none => simp [textContentF, textContentN, str_append_empty]
      | some i =>
        simp only [textContentF, textContentN, str_append_empty]
        apply strExtData
        simp only [String.data_append, List.append_assoc, List.nil_append, List.append_nil]
        have hd : s.data.drop (i + needle.length) = (s.data.drop i).drop needle.length := by
          rw [List.drop_drop]
        rw [hd, List.take_append_drop, List.take_append_drop]
    · simp [textContentF, textContentN, str_append_empty]
  | ptag, pcls, .elem t c kids => by
    have ih := textContent_hlF needle t c kids
    simp [hlN, textContentF, textContentN, str_append_empty, ih]

theorem textContent_hlF (needle : List Char) :
    ∀ (ptag : String) (pcls : List String) (f : List DNode),
      textContentF (hlF needle ptag pcls f) = textContentF f
  | ptag, pcls, [] => rfl
  | ptag, pcls, n :: rest => by
    have ih1 := textContent_hlN needle ptag pcls n
    have ih2 := textContent_hlF needle ptag pcls rest
    simp only [hlF, textContentF]
    rw [textContentF_append, ih1, ih2]

end

theorem textContent_highlightText (needle : String) (body : DNode) :
    textContentN (highlightText needle body) = textContentN body := by
  cases body with
  | text s => simp [highlightText]
  | elem t c kids =>
    by_cases he : needle == ""
    · simp [highlightText, he]
    · simp only [highlightText, he, Bool.false_eq_true, if_false]
      simpa [textContentN] using textContent_hlF needle.data t c kids

mutual

theorem textContent_rmN : ∀ n : DNode, textContentN (rmN n) = textContentN n
  | .text s => rfl
  | .elem t c kids => by
    have ih := textContent_rmF kids
    simp only [rmN]
    split
    · rfl
    · simpa [textContentN] using ih

theorem textContent_rmF : ∀ f : List DNode, textContentF (rmF f) = textContentF f
  | [] => rfl
  | n :: rest => by
    have ih1 := textContent_rmN n
    have ih2 := textContent_rmF rest
    simp [rmF, textContentF, ih1, ih2]

end

theorem textContent_normF : ∀ f : List DNode, textContentF (normF f) = textContentF f
  | [] => by simp [normF]
  | .text s :: rest => by
    have ih := textContent_normF rest
    simp only [normF]
    by_cases hs : s == ""
    · simp only [hs]
      have hse : s = "" := by simpa using hs
      show textContentF (normF rest) = textContentF (DNode.text s :: rest)
      rw [ih]
      simp [textContentF, textContentN, hse, str_empty_append]
    · have hsf : (s == "") = false := by simpa using hs
      simp only [hsf]
      cases hnf : normF rest with
      | nil =>
        show textContentF [DNode.text s] = textContentF (DNode.text s :: rest)
        have hr : textContentF rest = "" := by
          rw [← ih, hnf]
          simp [textContentF]
        simp [textContentF, textContentN, hr]
      | cons n2 r2 =>
        cases n2 with
        | text s2 =>
          show textContentF (DNode.text (s ++ s2) :: r2) = textContentF (DNode.text s :: rest)
          have hr : textContentF rest = s2 ++ textContentF r2 := by
            rw [← ih, hnf]
            simp [textContentF, textContentN]
          simp [textContentF, textContentN, hr, String.append_assoc]
        | elem t2 c2 k2 =>
          show textContentF (DNode.text s :: DNode.elem t2 c2 k2 :: r2) =
            textContentF (DNode.text s :: rest)
          have hr : textContentF rest = textContentF (DNode.elem t2 c2 k2 :: r2) := by
            rw [← ih, hnf]
          simp [textContentF, hr]
  | .elem t c kids :: rest => by
    have ih1 := textContent_normF kids
    have ih2 := textContent_normF rest
    simp [normF, textContentF, textContentN, ih1, ih2]

theorem textContent_removeHighlights (body : DNode) :
    textContentN (removeHighlights body) = textContentN body := by
  rw [removeHighlights]
  cases h : rmN body with
  | text s => rw [← textContent_rmN body, h]; rfl
  | elem t c kids =>
    rw [← textContent_rmN body, h]
    simpa [normN, textContentN] using textContent_normF kids

/-- C5: removing all highlights after applying them leaves the document's
text content byte-identical to its pre-apply state — in fact each of the
two phases already preserves the text content. -/
theorem highlight_roundtrip_textContent (needle : String) (body : DNode) :
    textContentN (removeHighlights (highlightText needle body)) = textContentN body := by
  rw [textContent_removeHighlights, textContent_highlightText]

/-! ### Claim C6: applying highlights twice -/
theorem hlF_append (needle : List Char) (ptag : String) (pcls : List String) :
    ∀ (a b : List DNode),
      hlF needle ptag pcls (a ++ b) = hlF needle ptag pcls a ++ hlF needle ptag pcls b := by
  intro a b
  induction a with
  | nil => simp [hlF]
  | cons n rest ih => simp [hlF, ih]

theorem firstIdxL_take_none (pat : List Char) (hp : pat ≠ []) {L : List Char} {i : Nat}
    (h : firstIdxL pat L = some i) : firstIdxL pat (L.take i) = none := by
  cases hx : firstIdxL pat (L.take i) with
  | none => rfl
  | some j =>
    exfalso
    obtain ⟨hmj, _⟩ := firstIdxL_first pat (L.take i) j hx
    obtain ⟨_, hmin⟩ := firstIdxL_first pat L i h
    have hplen : 0 < pat.length := List.length_pos.mpr hp
    have hlen1 : (((L.take i).drop j).take pat.length).length = pat.length := by
      rw [hmj]
    have hle : j + pat.length ≤ i := by
      simp only [List.length_take, List.length_drop] at hlen1
      omega
    apply hmin j (by omega)
    have hdt : (L.take i).drop j = (L.drop j).take (i - j) := by
      rw [List.drop_take]
    have : matchAt pat L j := by
      rw [matchAt]
      have h1 : ((L.drop j).take (i - j)).take pat.length = (L.drop j).take pat.length := by
        rw [List.take_take]
        congr 1
        omega
      rw [← h1, ← hdt]
      exact hmj
    exact this

theorem lowerL_take (l : List Char) (n : Nat) : lowerL (l.take n) = (lowerL l).take n := by
  simp [lowerL, List.map_take]

theorem lowerL_ne_nil {l : List Char} (h : l ≠ []) : lowerL l ≠ [] := by
  simpa [lowerL] using h

theorem firstMatchCI_take_none (needle : List Char) (hne : needle ≠ []) {l : List Char}
    {i : Nat} (h : firstMatchCI needle l = some i) :
    firstMatchCI needle (l.take i) = none := by
  rw [firstMatchCI, lowerL_take]
  exact firstIdxL_take_none (lowerL needle) (lowerL_ne_nil hne) h

theorem firstMatchCI_drop_of_noSecond (needle : List Char) {s : List Char} {i : Nat}
    (h1 : firstMatchCI needle s = some i) (h2 : noSecondCI needle s = true) :
    firstMatchCI needle (s.drop (i + needle.length)) = none := by
  rw [noSecondCI, h1] at h2
  exact Option.isNone_iff_eq_none.mp h2

theorem acceptText_span_false (s : String) :
    acceptText "span" ["whatsit-highlight"] s = false := by
  simp [acceptText]

mutual

theorem hlN_idem (needle : List Char) (hne : needle ≠ []) :
    ∀ (ptag : String) (pcls : List String) (n : DNode), atMostOnceN needle n = true →
      hlF needle ptag pcls (hlN needle ptag pcls n) = hlN needle ptag pcls n
  | ptag, pcls, .text s => by
    intro hA
    have hA2 : noSecondCI needle s.data = true := by simpa [atMostOnceN] using hA
    by_cases hAcc : acceptText ptag pcls s = true
    · simp only [hlN, hAcc, if_true]
      cases hm : firstMatchCI needle s.data with
      | none => simp [hlF, hlN, hAcc, hm]
      | some i =>
        have hbefore : firstMatchCI needle (s.data.take i) = none :=
          firstMatchCI_take_none needle hne hm
        have hafter : firstMatchCI needle (s.data.drop (i + needle.length)) = none :=
          firstMatchCI_drop_of_noSecond needle hm hA2
        simp [hlF, hlN, hbefore, hafter, acceptText_span_false, ite_self]
    · simp [hlN, hAcc, hlF]
  | ptag, pcls, .elem t c kids => by
    intro hA
    have ih := hlF_idem needle hne t c kids (by simpa [atMostOnceN] using hA)
    simp [hlN, hlF, ih]

theorem hlF_idem (needle : List Char) (hne : needle ≠ []) :
    ∀ (ptag : String) (pcls : List String) (f : List DNode), atMostOnceF needle f = true →
      hlF needle ptag pcls (hlF needle ptag pcls f) = hlF needle ptag pcls f
  | ptag, pcls, [] => by
    intro _
    simp [hlF]
  | ptag, pcls, n :: rest => by
    intro hA
    simp only [atMostOnceF, Bool.and_eq_true] at hA
    have h1 := hlN_idem needle hne ptag pcls n hA.1
    have h2 := hlF_idem needle hne ptag pcls rest hA.2
    simp only [hlF, hlF_append, h1, h2]

end

theorem highlightText_idem (needle : String) (body : DNode)
    (h : atMostOnceN needle.data body = true) :
    highlightText needle (highlightText needle body) = highlightText needle body := by
  by_cases he : needle == ""
  · simp [highlightText, he]
  · have hne : needle.data ≠ [] := by
      apply data_ne_of_str_ne
      simpa using he
    cases body with
    | text s => simp [highlightText, he]
    | elem t c kids =>
      simp only [highlightText, he, Bool.false_eq_true, if_false]
      rw [hlF_idem needle.data hne t c kids (by simpa [atMostOnceN] using h)]

/-- C6 counterexample: with the text `"ha"` occurring twice in one text
node, the first application highlights only the first occurrence (the
regex has no `g` flag), and the second application matches the leftover
text node `" ha"` and wraps a second highlight: two applications leave 2
highlight elements where one application leaves 1. -/
theorem highlight_twice_duplicates :
    countHLN (highlightText "ha" (highlightText "ha"
        (DNode.elem "body" [] [DNode.text "ha ha"]))) = 2 ∧
    countHLN (highlightText "ha" (DNode.elem "body" [] [DNode.text "ha ha"])) = 1 := by
  constructor <;> decide

/-- C6 amended: when the highlighted text occurs at most once
(case-insensitively) in every text node of the document, applying
`highlightText` twice with the same text is idempotent — the second
application changes nothing, so the number of highlight annotation
elements is exactly that of a single application.  (With repeated
occurrences in one text node the second application adds a highlight, as
the counterexample shows.) -/
theorem highlight_twice_same_count (needle : String) (body : DNode)
    (h : atMostOnceN needle.data body = true) :
    countHLN (highlightText needle (highlightText needle body)) =
      countHLN (highlightText needle body) := by
  rw [highlightText_idem needle body h]

theorem highlight_twice_same_count_witness :
    atMostOnceN "ha".data (DNode.elem "body" [] [DNode.text "ha"]) = true ∧
    countHLN (highlightText "ha" (highlightText "ha"
        (DNode.elem "body" [] [DNode.text "ha"]))) =
      countHLN (highlightText "ha" (DNode.elem "body" [] [DNode.text "ha"])) :=
  ⟨by decide, highlight_twice_same_count "ha" (DNode.elem "body" [] [DNode.text "ha"])
    (by decide)⟩

end WhatsIt
